import Mathlib

/-!
# SonicTag DeepSeal — verification of the audio-watermarking core

Shallow embedding of `src/sonictag/deepseal.py`, `src/sonictag/fec.py` and
`src/sonictag/realtime.py`.  Machine integers are modelled as `Nat` with
explicit masking by `2^32` where the Python/NumPy code wraps; audio samples
are modelled as real numbers; fallible code returns `Except`.
-/

namespace SonicTag

/-! ## NumPy legacy `RandomState` (Mersenne Twister MT19937)

`np.random.RandomState(seed)` with an integer seed uses the classic
`init_genrand` seeding and the MT19937 generator.  The state is the 624-word
vector together with the draw position; a fresh state has position 624 so the
first draw triggers a full regeneration of the block. -/

def mask32 (x : Nat) : Nat := x &&& 0xFFFFFFFF

def mtInitAux (prev : Nat) (i : Nat) : Nat → List Nat
  | 0 => []
  | fuel + 1 =>
    let v := mask32 (1812433253 * (prev ^^^ (prev >>> 30)) + i)
    v :: mtInitAux v (i + 1) fuel

/-- `init_genrand`: `mt[0] = seed`, `mt[i] = 1812433253*(mt[i-1] ^ (mt[i-1] >> 30)) + i` mod 2^32. -/
def mtInitState (seed : Nat) : List Nat :=
  mask32 seed :: mtInitAux (mask32 seed) 1 623

/-- One in-place step of the MT19937 twist at index `i`. -/
def twistStep (mt : List Nat) (i : Nat) : List Nat :=
  let y := (mt.getD i 0 &&& 0x80000000) ||| (mt.getD ((i + 1) % 624) 0 &&& 0x7FFFFFFF)
  let v := mt.getD ((i + 397) % 624) 0 ^^^ (y >>> 1) ^^^ (if y &&& 1 = 1 then 0x9908B0DF else 0)
  mt.set i v

def twistFrom (mt : List Nat) (i : Nat) : Nat → List Nat
  | 0 => mt
  | fuel + 1 => twistFrom (twistStep mt i) (i + 1) fuel

/-- Full regeneration of the 624-word block (sequential in-place updates,
exactly as the reference C loop reads a mix of old and already-updated words). -/
def mtTwist (mt : List Nat) : List Nat := twistFrom mt 0 624

/-- MT19937 output tempering. -/
def mtTemper (y : Nat) : Nat :=
  let y1 := y ^^^ (y >>> 11)
  let y2 := y1 ^^^ ((y1 <<< 7) &&& 0x9D2C5680)
  let y3 := y2 ^^^ ((y2 <<< 15) &&& 0xEFC60000)
  mask32 (y3 ^^^ (y3 >>> 18))

/-- Generator state: the 624-word vector and the next draw position. -/
def MTState := List Nat × Nat

/-- Draw one tempered 32-bit output (`rk_random`). -/
def mtNext (s : MTState) : Nat × MTState :=
  if 624 ≤ s.2 then
    let mt := mtTwist s.1
    (mtTemper (mt.getD 0 0), (mt, 1))
  else
    (mtTemper (s.1.getD s.2 0), (s.1, s.2 + 1))

/-- `RandomState(seed)`: freshly seeded state, position 624. -/
def mtFresh (seed : Nat) : MTState := (mtInitState seed, 624)

/-- The list of the next `n` raw 32-bit draws. -/
def mtDraws : Nat → MTState → List Nat
  | 0, _ => []
  | n + 1, s =>
    let r := mtNext s
    r.1 :: mtDraws n r.2

/-- `DeepSeal.generate_pn_sequence`: `RandomState(seed).randint(0, 2, size=n) * 2 - 1`.
The bounded draw for `randint(0, 2)` is the legacy masked draw: one 32-bit
output masked down to its low bit (mask = 1, never rejected). -/
def generate_pn_sequence (seed n : Nat) : List Int :=
  (mtDraws n (mtFresh seed)).map (fun y => ((y &&& 1 : Nat) : Int) * 2 - 1)

/-- `randomkit`'s `rk_interval` mask: smallest `2^k - 1` covering `m`,
built by the or-shift cascade of the C code. -/
def rkMask (m : Nat) : Nat :=
  let m1 := m ||| (m >>> 1)
  let m2 := m1 ||| (m1 >>> 2)
  let m3 := m2 ||| (m2 >>> 4)
  let m4 := m3 ||| (m3 >>> 8)
  m4 ||| (m4 >>> 16)

/-- Masked rejection sampling of a value in `[0, max]` (`rk_interval`).
The rejection loop is modelled with fuel; the fuel-exhausted fallback 0 is
unreachable in the concrete uses below. -/
def rkIntervalAux (max mask : Nat) : Nat → MTState → Nat × MTState
  | 0, s => (0, s)
  | fuel + 1, s =>
    let r := mtNext s
    let v := r.1 &&& mask
    if v ≤ max then (v, r.2) else rkIntervalAux max mask fuel r.2

def rkInterval (max : Nat) (s : MTState) : Nat × MTState :=
  rkIntervalAux max (rkMask max) 4096 s

/-- `arr[i], arr[j] = arr[j], arr[i]` (simultaneous swap). -/
def swapAt (l : List Nat) (i j : Nat) : List Nat :=
  (l.set i (l.getD j 0)).set j (l.getD i 0)

/-- Fisher–Yates loop of `RandomState.shuffle`: for `i` from `n-1` down to 1,
draw `j = rk_interval(i)` and swap positions `i` and `j`. -/
def shuffleAux (arr : List Nat) (s : MTState) : Nat → List Nat
  | 0 => arr
  | i + 1 =>
    let r := rkInterval (i + 1) s
    shuffleAux (swapAt arr (i + 1) r.1) r.2 i

/-- `np.random.RandomState(seed).permutation(n)`. -/
def mtPermutation (n seed : Nat) : List Nat :=
  shuffleAux (List.range n) (mtFresh seed) (n - 1)

/-- `np.argsort`: indices that sort the values (values are distinct in every
use below, so stability is irrelevant). -/
def argsort (l : List Nat) : List Nat :=
  List.insertionSort (fun i j => l.getD i 0 ≤ l.getD j 0) (List.range l.length)

/-! ## Bit codecs (`DeepSeal._int_to_bits`, `DeepSeal._bits_to_int`, `int.to_bytes`) -/

/-- `_int_to_bits(val, num_bits)`: the MSB-first list
`[(val >> i) & 1 for i in range(num_bits - 1, -1, -1)]`. -/
def int_to_bits (val : Nat) : Nat → List Nat
  | 0 => []
  | w + 1 => ((val >>> w) &&& 1) :: int_to_bits val w

/-- One step of `_bits_to_int`: `val = (val << 1) | int(bit > 0.5)` (bits are
naturals here, so `bit > 0.5` is `0 < bit`). -/
def b2iStep (v b : Nat) : Nat := (v <<< 1) ||| (if 0 < b then 1 else 0)

/-- `_bits_to_int`: fold the shift-or step over the bit list. -/
def bits_to_int (bits : List Nat) : Nat :=
  bits.foldl b2iStep 0

/-- `int(x).to_bytes(4, byteorder='big')`; every caller passes `x < 2^32`. -/
def bytes4 (x : Nat) : List Nat :=
  [(x >>> 24) &&& 0xFF, (x >>> 16) &&& 0xFF, (x >>> 8) &&& 0xFF, x &&& 0xFF]

/-! ## CRC-8, polynomial 0x07, init 0 (`FEC.crc8`) -/

def crc8Round (c : Nat) : Nat :=
  (if c &&& 0x80 ≠ 0 then (c <<< 1) ^^^ 0x07 else c <<< 1) &&& 0xFF

def crc8Rounds : Nat → Nat → Nat
  | 0, c => c
  | n + 1, c => crc8Rounds n (crc8Round c)

/-- `FEC.crc8`: per byte, XOR it in and run 8 shift/XOR rounds masked to 8 bits. -/
def crc8 (data : List Nat) : Nat :=
  data.foldl (fun c b => crc8Rounds 8 (c ^^^ b)) 0

/-! ## Systematic Hamming(7,4) (`SystematicFEC`) -/

/-- Generator matrix `[I4 | P]` with p1 = d1+d2+d4, p2 = d1+d3+d4, p3 = d2+d3+d4. -/
def G : List (List Nat) :=
  [[1, 0, 0, 0, 1, 1, 0],
   [0, 1, 0, 0, 1, 0, 1],
   [0, 0, 1, 0, 0, 1, 1],
   [0, 0, 0, 1, 1, 1, 1]]

/-- Parity-check matrix `[P^T | I3]`. -/
def H : List (List Nat) :=
  [[1, 1, 0, 1, 1, 0, 0],
   [1, 0, 1, 1, 0, 1, 0],
   [0, 1, 1, 1, 0, 0, 1]]

/-- The `ValueError`s raised by `encode_hamming` / `decode_hamming` on
lengths that are not multiples of 4 / 7. -/
inductive FecError
  | lenNotMult4
  | lenNotMult7
deriving DecidableEq, Repr

deriving instance DecidableEq for Except

/-- `np.dot(nibble, G) % 2`: the 7-bit codeword of one data nibble. -/
def encodeNibble (nib : List Nat) : List Nat :=
  (List.range 7).map fun j =>
    (((List.range 4).map fun i => nib.getD i 0 * (G.getD i []).getD j 0).sum) % 2

/-- `encode_hamming` (inherited from `FEC`): input length must be a multiple
of 4; each nibble becomes a 7-bit codeword. -/
def encode_hamming : List Nat → Except FecError (List Nat)
  | [] => .ok []
  | d1 :: d2 :: d3 :: d4 :: rest =>
    match encode_hamming rest with
    | .error e => .error e
    | .ok tail => .ok (encodeNibble [d1, d2, d3, d4] ++ tail)
  | _ => .error .lenNotMult4

/-- The fixed syndrome→bit-index table of `SystematicFEC.decode_hamming`. -/
def syndrome_map : Nat → Option Nat
  | 3 => some 0
  | 5 => some 1
  | 6 => some 2
  | 7 => some 3
  | 1 => some 4
  | 2 => some 5
  | 4 => some 6
  | _ => none

/-- Row `r` of the syndrome `H · block % 2`. -/
def syndromeBit (r : Nat) (blk : List Nat) : Nat :=
  (((List.range 7).map fun j => (H.getD r []).getD j 0 * blk.getD j 0).sum) % 2

/-- Decode one 7-bit block: syndrome value `s0 + 2*s1 + 4*s2`, flip the bit
the table points at (if any), return the first 4 (data) bits. -/
def decodeBlock (blk : List Nat) : List Nat :=
  let val := syndromeBit 0 blk + syndromeBit 1 blk * 2 + syndromeBit 2 blk * 4
  let corrected :=
    if 0 < val then
      match syndrome_map val with
      | some idx => blk.set idx (1 - blk.getD idx 0)
      | none => blk
    else blk
  corrected.take 4

/-- `SystematicFEC.decode_hamming`: input length must be a multiple of 7. -/
def decode_hamming : List Nat → Except FecError (List Nat)
  | [] => .ok []
  | b1 :: b2 :: b3 :: b4 :: b5 :: b6 :: b7 :: rest =>
    match decode_hamming rest with
    | .error e => .error e
    | .ok tail => .ok (decodeBlock [b1, b2, b3, b4, b5, b6, b7] ++ tail)
  | _ => .error .lenNotMult7

/-! ## Interleaving and the digital frame chain -/

/-- `encoded_bits[perm_indices]` with the fixed permutation drawn from
`RandomState(0xDEADBEEF)`. -/
def interleave (l : List Nat) : List Nat :=
  (mtPermutation l.length 0xDEADBEEF).map fun i => l.getD i 0

/-- `raw_bits[np.argsort(perm_indices)]`: inverse of the interleaving. -/
def deinterleave (l : List Nat) : List Nat :=
  (argsort (mtPermutation l.length 0xDEADBEEF)).map fun i => l.getD i 0

/-- Barker-13 preamble padded with three zero bits (16 bits). -/
def preamble_bits : List Nat := [1, 1, 1, 1, 1, 0, 0, 1, 1, 0, 1, 0, 1, 0, 0, 0]

/-- Digital framing chain of `DeepSeal.embed` (steps 1–3): 32 payload bits
and 8 CRC bits, Hamming-encoded, then interleaved. -/
def frame_bits (final_id : Nat) : Except FecError (List Nat) :=
  match encode_hamming (int_to_bits final_id 32 ++ int_to_bits (crc8 (bytes4 final_id)) 8) with
  | .error e => .error e
  | .ok enc => .ok (interleave enc)

/-- Steps 3–5 of `DeepSeal.extract` after hard-decision demodulation:
de-interleave, Hamming-decode, length check, split payload/CRC, CRC gate,
strip the 4 version bits. -/
def decode_stage (raw : List Nat) : Except FecError (Option Nat) :=
  match decode_hamming (deinterleave raw) with
  | .error e => .error e
  | .ok dec =>
    if dec.length ≠ 40 then .ok none
    else
      let eid := bits_to_int (dec.take 32)
      let ecrc := bits_to_int (dec.drop 32)
      if crc8 (bytes4 eid) = ecrc then .ok (some (eid &&& 0x0FFFFFFF)) else .ok none

/-- `RandomState(0xDEADBEEF).permutation(70)` — the fixed interleaver
permutation, evaluated once and for all; certified against the generator
model by `mtPermutation_70_eq` below. -/
def pnPerm70 : List Nat :=
  [34, 30, 28, 67, 5, 16, 7, 15, 21, 1, 4, 10, 37, 22, 20, 53, 56, 32, 41, 68,
   61, 14, 43, 51, 62, 17, 52, 35, 19, 6, 31, 12, 27, 23, 48, 42, 46, 45, 38, 3,
   33, 65, 11, 64, 25, 58, 2, 69, 54, 44, 8, 36, 40, 0, 50, 63, 24, 47, 9, 55,
   60, 39, 13, 26, 59, 49, 18, 29, 66, 57]

/-- `np.argsort` of `pnPerm70`; certified by `argsort_pnPerm70` below. -/
def pnInv70 : List Nat :=
  [53, 9, 46, 39, 10, 4, 29, 6, 50, 58, 11, 42, 31, 62, 21, 7, 5, 25, 66, 28,
   14, 8, 13, 33, 56, 44, 63, 32, 2, 67, 1, 30, 17, 40, 0, 27, 51, 12, 38, 61,
   52, 18, 35, 22, 49, 37, 36, 57, 34, 65, 54, 23, 26, 15, 48, 59, 16, 69, 45, 64,
   60, 20, 24, 55, 43, 41, 68, 3, 19, 47]

/-! ## SHA-256 (seed derivation from a key string)

`DeepSeal.__init__` derives the spreading seed as the big-endian value of the
first 4 bytes of `hashlib.sha256(key.encode('utf-8')).digest()`.  Words are
naturals masked to 32 bits; the message is a byte list. -/

def rotr32 (n x : Nat) : Nat := mask32 ((x >>> n) ||| (x <<< (32 - n)))

def shaBsig0 (x : Nat) : Nat := rotr32 2 x ^^^ rotr32 13 x ^^^ rotr32 22 x

def shaBsig1 (x : Nat) : Nat := rotr32 6 x ^^^ rotr32 11 x ^^^ rotr32 25 x

def shaSsig0 (x : Nat) : Nat := rotr32 7 x ^^^ rotr32 18 x ^^^ (x >>> 3)

def shaSsig1 (x : Nat) : Nat := rotr32 17 x ^^^ rotr32 19 x ^^^ (x >>> 10)

/-- The 64 SHA-256 round constants (FIPS 180-4 §4.2.2), in decimal. -/
def shaK : List Nat :=
  [1116352408, 1899447441, 3049323471, 3921009573, 961987163,
   1508970993, 2453635748, 2870763221, 3624381080, 310598401,
   607225278, 1426881987, 1925078388, 2162078206, 2614888103,
   3248222580, 3835390401, 4022224774, 264347078, 604807628,
   770255983, 1249150122, 1555081692, 1996064986, 2554220882,
   2821834349, 2952996808, 3210313671, 3336571891, 3584528711,
   113926993, 338241895, 666307205, 773529912, 1294757372,
   1396182291, 1695183700, 1986661051, 2177026350, 2456956037,
   2730485921, 2820302411, 3259730800, 3345764771, 3516065817,
   3600352804, 4094571909, 275423344, 430227734, 506948616,
   659060556, 883997877, 958139571, 1322822218, 1537002063,
   1747873779, 1955562222, 2024104815, 2227730452, 2361852424,
   2428436474, 2756734187, 3204031479, 3329325298]

/-- The eight initial hash values (FIPS 180-4 §5.3.3), in decimal. -/
def shaInit : List Nat :=
  [1779033703, 3144134277, 1013904242, 2773480762,
   1359893119, 2600822924, 528734635, 1541459225]

/-- Group a byte list into big-endian 32-bit words (length a multiple of 4). -/
def bytesToWords : List Nat → List Nat
  | b0 :: b1 :: b2 :: b3 :: rest =>
    ((((b0 <<< 8) ||| b1) <<< 8 ||| b2) <<< 8 ||| b3) :: bytesToWords rest
  | _ => []

/-- SHA-256 padding: `0x80`, zeros to 56 mod 64, 8-byte big-endian bit length. -/
def shaPad (msg : List Nat) : List Nat :=
  let bitLen := msg.length * 8
  msg ++ [0x80] ++ List.replicate ((120 - ((msg.length + 1) % 64)) % 64) 0 ++
    [(bitLen >>> 56) &&& 0xFF, (bitLen >>> 48) &&& 0xFF, (bitLen >>> 40) &&& 0xFF,
     (bitLen >>> 32) &&& 0xFF, (bitLen >>> 24) &&& 0xFF, (bitLen >>> 16) &&& 0xFF,
     (bitLen >>> 8) &&& 0xFF, bitLen &&& 0xFF]

/-- Message-schedule extension, carried on the reversed word list so the
last-produced word is at the head. -/
def shaSchedRev (w : List Nat) : Nat → List Nat
  | 0 => w
  | fuel + 1 =>
    shaSchedRev
      (mask32 (shaSsig1 (w.getD 1 0) + w.getD 6 0 + shaSsig0 (w.getD 14 0) + w.getD 15 0) :: w)
      fuel

/-- One compression round on the `[a,b,c,d,e,f,g,h]` working variables. -/
def shaRound (st : List Nat) (kw : Nat × Nat) : List Nat :=
  match st with
  | [a, b, c, d, e, f, g, h] =>
    let ch := (e &&& f) ^^^ ((e ^^^ 0xFFFFFFFF) &&& g)
    let mj := (a &&& b) ^^^ (a &&& c) ^^^ (b &&& c)
    let t1 := mask32 (h + shaBsig1 e + ch + kw.1 + kw.2)
    let t2 := mask32 (shaBsig0 a + mj)
    [mask32 (t1 + t2), a, b, c, mask32 (d + t1), e, f, g]
  | other => other

/-- Compress one 16-word block into the state. -/
def shaCompress (st : List Nat) (block16 : List Nat) : List Nat :=
  let w := (shaSchedRev block16.reverse 48).reverse
  let fin := (shaK.zip w).foldl shaRound st
  List.zipWith (fun x y => mask32 (x + y)) st fin

/-- Fold the compression over all 64-byte blocks (fuel = byte count suffices). -/
def shaBlocksGo (st : List Nat) (bytes : List Nat) : Nat → List Nat
  | 0 => st
  | fuel + 1 =>
    if bytes = [] then st
    else shaBlocksGo (shaCompress st (bytesToWords (bytes.take 64))) (bytes.drop 64) fuel

/-- `hashlib.sha256(msg).digest()` as a 32-byte list. -/
def shaDigest (msg : List Nat) : List Nat :=
  let padded := shaPad msg
  let st := shaBlocksGo shaInit padded padded.length
  (st.map fun w => [(w >>> 24) &&& 0xFF, (w >>> 16) &&& 0xFF, (w >>> 8) &&& 0xFF, w &&& 0xFF]).flatten

/-- UTF-8 encoding of one code point. -/
def utf8Char (u : Nat) : List Nat :=
  if u < 0x80 then [u]
  else if u < 0x800 then [0xC0 ||| (u >>> 6), 0x80 ||| (u &&& 0x3F)]
  else if u < 0x10000 then
    [0xE0 ||| (u >>> 12), 0x80 ||| ((u >>> 6) &&& 0x3F), 0x80 ||| (u &&& 0x3F)]
  else
    [0xF0 ||| (u >>> 18), 0x80 ||| ((u >>> 12) &&& 0x3F), 0x80 ||| ((u >>> 6) &&& 0x3F),
     0x80 ||| (u &&& 0x3F)]

/-- `key.encode('utf-8')` as a byte list. -/
def utf8Encode (s : String) : List Nat :=
  (s.data.map fun ch => utf8Char ch.toNat).flatten

/-- `int.from_bytes(hash_bytes[:4], 'big')`. -/
def first4BE (bytes : List Nat) : Nat :=
  (bytes.take 4).foldl (fun a b => a * 256 + b) 0

/-- Seed derivation in `DeepSeal.__init__`: an explicit integer seed wins;
otherwise a key string is hashed — but Python's `if key:` is false for the
empty string, which therefore falls through to the public default 42. -/
def derive_seed (seed : Option Nat) (key : Option String) : Nat :=
  match seed with
  | some s => s
  | none =>
    match key with
    | some k => if k = "" then 42 else first4BE (shaDigest (utf8Encode k))
    | none => 42

/-- Configuration state created by `DeepSeal.__init__`. -/
structure DeepSeal where
  seed : Nat
  chip_rate : Nat
  sample_rate : Nat
  telecom_mode : Bool
  rng : MTState

/-- `DeepSeal.__init__(seed, key, chip_rate, sample_rate, telecom_mode)`. -/
def DeepSeal.init (seed : Option Nat) (key : Option String)
    (chip_rate sample_rate : Nat) (telecom_mode : Bool) : DeepSeal :=
  let s := derive_seed seed key
  ⟨s, chip_rate, sample_rate, telecom_mode, mtFresh s⟩

/-- `DeepSeal.generate_pn_sequence` as a method: it builds a local generator
from `self.seed` only; `self.rng` and the rest of the state are not read. -/
def DeepSeal.generate_pn (ds : DeepSeal) (n : Nat) : List Int :=
  generate_pn_sequence ds.seed n

/-! ## Real-valued DSP models

Audio samples are real numbers (the Python code computes with IEEE floats;
the claims settled on these definitions depend only on lengths and control
flow, which the exact-real model shares with the float code). -/

noncomputable section

/-- `scipy.signal.lfilter(b, a, x)`: direct-form IIR with zero initial state,
`a[0]·y[n] = Σ_k b[k]·x[n−k] − Σ_{k≥1} a[k]·y[n−k]`.  Output length equals
input length for any coefficient lists. -/
def lfilterAux (b a x : List ℝ) : Nat → List ℝ
  | 0 => []
  | n + 1 =>
    let ys := lfilterAux b a x n
    let acc := (∑ k ∈ Finset.range b.length, if k ≤ n then b.getD k 0 * x.getD (n - k) 0 else 0)
             - (∑ k ∈ Finset.range a.length,
                 if 1 ≤ k ∧ k ≤ n then a.getD k 0 * ys.getD (n - k) 0 else 0)
    ys ++ [acc / a.getD 0 0]

def lfilter (b a x : List ℝ) : List ℝ := lfilterAux b a x x.length

/-- Pre-emphasis `scipy.signal.lfilter([1, -0.95], [1], x)`. -/
def preemphasis (x : List ℝ) : List ℝ := lfilter [1, -0.95] [1] x

/-- Multiply a leading-coefficient-first polynomial by `(X − r)`. -/
def mulLin (r : ℂ) (p : List ℂ) : List ℂ :=
  List.zipWith (fun u v => u - v) (p ++ [0]) (0 :: p.map fun cf => r * cf)

/-- `np.poly`: coefficients (leading first) of the monic polynomial with the
given roots. -/
def polyFromRoots : List ℂ → List ℂ
  | [] => [1]
  | r :: rs => mulLin r (polyFromRoots rs)

/-- The two analog Butterworth prototype poles for order 2 (`buttap`). -/
def butterPrototypePoles : List ℂ :=
  [Complex.exp (Complex.I * Real.pi * (3 / 4)), Complex.exp (Complex.I * Real.pi * (5 / 4))]

/-- `scipy.signal.butter(2, [500/nyq, 3000/nyq], btype='band')`: prewarp the
band edges, move the low-pass prototype to a band-pass (`lp2bp_zpk`), apply
the bilinear transform at `fs = 2` (`bilinear_zpk`), and expand the
zero/pole/gain form into transfer-function coefficients. -/
def butterBandpass (sampleRate : ℝ) : List ℝ × List ℝ :=
  let nyq := 0.5 * sampleRate
  let fs : ℝ := 2
  let warped1 := 2 * fs * Real.tan (Real.pi * (500 / nyq) / fs)
  let warped2 := 2 * fs * Real.tan (Real.pi * (3000 / nyq) / fs)
  let bw := warped2 - warped1
  let wo := Real.sqrt (warped1 * warped2)
  let plp := butterPrototypePoles.map fun p => p * ((bw / 2 : ℝ) : ℂ)
  let pbp := (plp.map fun p => p + Complex.cpow (p ^ 2 - ((wo ^ 2 : ℝ) : ℂ)) (1 / 2))
          ++ (plp.map fun p => p - Complex.cpow (p ^ 2 - ((wo ^ 2 : ℝ) : ℂ)) (1 / 2))
  let zbp : List ℂ := [0, 0]
  let fs2 : ℂ := ((2 * fs : ℝ) : ℂ)
  let zd := (zbp.map fun z => (fs2 + z) / (fs2 - z)) ++ [-1, -1]
  let pd := pbp.map fun p => (fs2 + p) / (fs2 - p)
  let kd := ((bw ^ 2 : ℝ) : ℂ) * ((zbp.map fun z => fs2 - z).prod / (pbp.map fun p => fs2 - p).prod)
  ((polyFromRoots zd).map fun cf => (kd * cf).re, (polyFromRoots pd).map Complex.re)

/-- `DeepSeal._apply_bandpass`: 2nd-order Butterworth band-pass, causal
filtering. -/
def apply_bandpass (sampleRate : ℝ) (x : List ℝ) : List ℝ :=
  lfilter (butterBandpass sampleRate).1 (butterBandpass sampleRate).2 x

/-- `np.mean`. -/
def meanR (l : List ℝ) : ℝ := l.sum / l.length

/-- `np.std` (population standard deviation). -/
def stdR (l : List ℝ) : ℝ :=
  Real.sqrt ((l.map fun x => (x - meanR l) ^ 2).sum / l.length)

/-- Value of the full convolution of `x` and `w` at output index `k`. -/
def convFullAt (x w : List ℝ) (k : Nat) : ℝ :=
  ∑ j ∈ Finset.range (k + 1), x.getD j 0 * w.getD (k - j) 0

/-- `scipy.signal.convolve(x, w, mode='same')`: the centre slice of the full
convolution, same length as `x`. -/
def convolve_same (x w : List ℝ) : List ℝ :=
  List.ofFn fun i : Fin x.length => convFullAt x w (i + (w.length - 1) / 2)

/-- `DeepSeal._compute_masking_threshold`: RMS envelope over a 1024 window,
floored at 1e-9, scaled by `10^(dB/20)` with dB = −15 (telecom) / −25. -/
def compute_masking_threshold (telecom : Bool) (audio : List ℝ) : List ℝ :=
  let env := (convolve_same (audio.map fun s => s ^ 2)
    (List.replicate 1024 ((1 : ℝ) / 1024))).map Real.sqrt
  let env2 := env.map fun e => max e 1e-9
  let thresholdDb : ℝ := if telecom then -15 else -25
  env2.map fun e => e * Real.rpow 10 (thresholdDb / 20)

/-- `np.fft.rfft(x, n)`: the first `n/2 + 1` DFT coefficients of the
zero-padded input. -/
def rfft (x : List ℝ) (n : Nat) : List ℂ :=
  List.ofFn fun k : Fin (n / 2 + 1) =>
    ∑ t ∈ Finset.range n, (x.getD t 0 : ℂ) *
      Complex.exp (-2 * Real.pi * Complex.I * (k : ℕ) * t / n)

/-- Hermitian extension of a half spectrum to all `n` bins. -/
def hermExtension (y : List ℂ) (n k : Nat) : ℂ :=
  if k ≤ n / 2 then y.getD k 0 else (starRingEnd ℂ) (y.getD (n - k) 0)

/-- `np.fft.irfft(y, n)`: real inverse DFT of the Hermitian-extended half
spectrum, `n` output samples. -/
def irfft (y : List ℂ) (n : Nat) : List ℝ :=
  List.ofFn fun t : Fin n =>
    ((1 : ℂ) / n * ∑ k ∈ Finset.range n, hermExtension y n k *
      Complex.exp (2 * Real.pi * Complex.I * (k : ℕ) * (t : ℕ) / n)).re

/-- `scipy.ndimage`'s `'reflect'` boundary (`d c b a | a b c d | d c b a`). -/
def reflectIdx (i : Int) (n : Nat) : Nat :=
  if n = 0 then 0
  else
    let j := (i % (2 * (n : Int))).toNat
    if j < n then j else 2 * n - 1 - j

/-- `scipy.ndimage.uniform_filter1d(x, size=w)` with the default `'reflect'`
mode and centred origin. -/
def uniform_filter1d (x : List ℝ) (w : Nat) : List ℝ :=
  List.ofFn fun i : Fin x.length =>
    (∑ j ∈ Finset.range w,
      x.getD (reflectIdx ((i : Int) + (j : Int) - ((w / 2 : Nat) : Int)) x.length) 0) / w

/-- `np.max` of a list of non-negative reals (magnitudes), seeded with 0. -/
def listMax (l : List ℝ) : ℝ := l.foldr max 0

/-- `DeepSeal._shape_spectrum`: shape the noise spectrum by the smoothed,
peak-normalised, 0.2-floored magnitude envelope of the audio. -/
def shape_spectrum (noise audio : List ℝ) : List ℝ :=
  if noise.length ≠ audio.length then noise
  else
    let nfft := 2 ^ Nat.size (audio.length - 1)
    let noiseFft := rfft noise nfft
    let audioMag := (rfft audio nfft).map Complex.abs
    let smoothed := uniform_filter1d audioMag (max (nfft / 64) 1)
    let peak := listMax smoothed
    let smoothed2 := if 1e-9 < peak then smoothed.map fun v => v / peak else smoothed
    let smoothed3 := smoothed2.map fun v => max v 0.2
    let shapedFft := List.zipWith (fun (nf : ℂ) (m : ℝ) => nf * (m : ℂ)) noiseFft smoothed3
    (irfft shapedFft nfft).take noise.length

/-- The errors raised by `DeepSeal.embed` (`ValueError`s in the source). -/
inductive EmbedError
  | invalidId
  | hostTooShort
  | fecLength
deriving DecidableEq

/-- Steps 2–3 of `DeepSeal.embed` after framing: chip-expand the 102 frame
bits, modulate to ±1, multiply by the PN sequence, and (telecom mode only)
band-pass the spread signal. -/
def watermark_signal (telecom : Bool) (sr : ℝ) (c seed : Nat) (fb : List Nat) : List ℝ :=
  let fullBits := preamble_bits ++ fb ++ preamble_bits
  let pn := generate_pn_sequence seed (fullBits.length * c)
  let expanded := (fullBits.map fun b => List.replicate c b).flatten
  let spread := List.zipWith (fun m p => m * p)
    (expanded.map fun b : Nat => (b : ℝ) * 2 - 1) (pn.map fun z : Int => (z : ℝ))
  if telecom then apply_bandpass sr spread else spread

/-- Steps 4 of `DeepSeal.embed`: spectral shaping against the host prefix,
re-normalisation to unit variance (when the deviation exceeds 1e-9), and the
psychoacoustic amplitude mask. -/
def shaped_watermark (telecom : Bool) (host spread : List ℝ) : List ℝ :=
  let shaped0 := shape_spectrum spread host
  let shaped := if 1e-9 < stdR shaped0 then shaped0.map fun v => v / stdR shaped0 else shaped0
  List.zipWith (fun u v => u * v) shaped (compute_masking_threshold telecom host)

/-- `DeepSeal.embed(audio, watermark_id)`. -/
def embed (telecom : Bool) (sr : ℝ) (c seed : Nat) (audio : List ℝ)
    (watermark_id : Nat) : Except EmbedError (List ℝ) :=
  if 2 ^ 28 ≤ watermark_id then .error .invalidId
  else
    match frame_bits ((1 <<< 28) ||| watermark_id) with
    | .error _ => .error .fecLength
    | .ok fb =>
      let spread := watermark_signal telecom sr c seed fb
      if audio.length < spread.length then .error .hostTooShort
      else
        .ok (List.zipWith (fun u v => u + v) (audio.take spread.length)
              (shaped_watermark telecom (audio.take spread.length) spread)
          ++ audio.drop spread.length)

/-- Step 2 of `DeepSeal.extract` (after synchronisation): slice the payload
window and the matching PN chips, apply the same band-pass / pre-emphasis to
the PN reference, demodulate with the polarity sign, and integrate each
`chip_rate` chunk into a hard bit decision (70 bits). -/
def raw_demod_bits (telecom : Bool) (sr : ℝ) (c seed : Nat) (finalAudio : List ℝ)
    (finalStart : Nat) (polarity : ℝ) : List Nat :=
  let payloadStart := preamble_bits.length * c
  let total := 70 * c
  let payloadAudio := (finalAudio.drop (finalStart + payloadStart)).take total
  let fullPn := generate_pn_sequence seed (payloadStart + total)
  let pnSlice := ((fullPn.drop payloadStart).take total).map fun z : Int => (z : ℝ)
  let payloadPn := if telecom then apply_bandpass sr pnSlice else preemphasis pnSlice
  let demod := (List.zipWith (fun u v => u * v) payloadAudio payloadPn).map fun v => v * polarity
  (List.range 70).map fun i => if 0 < ((demod.drop (i * c)).take c).sum then 1 else 0

/-- The tail of `DeepSeal.extract` (from the payload-window bound check to the
returned value), as a function of the synchronised audio, start index and
polarity produced by the float sync stage. -/
def extract_tail (telecom : Bool) (sr : ℝ) (c seed : Nat) (finalAudio : List ℝ)
    (finalStart : Nat) (polarity : ℝ) : Except FecError (Option Nat) :=
  if finalAudio.length < finalStart + preamble_bits.length * c + 70 * c then .ok none
  else decode_stage (raw_demod_bits telecom sr c seed finalAudio finalStart polarity)

/-- The inner `while len(buffer) >= chunk_size` loop of
`RealTimeInjector.process_stream`: split off `86·chip_rate`-sample frames and
embed each.  The loop removes at least `86·chip_rate ≥ 86` samples per
iteration (the guard `0 < c` only excludes the degenerate non-terminating
`chip_rate = 0` configuration), so fuel equal to the buffer length — which is
what the caller passes — suffices and the fuel-exhausted base case is
unreachable. -/
def process_frames (sr : ℝ) (c seed wid : Nat) :
    Nat → List ℝ → List (List ℝ) → Except EmbedError (List (List ℝ) × List ℝ)
  | 0, buffer, out => .ok (out, buffer)
  | fuel + 1, buffer, out =>
    if 0 < c ∧ 86 * c ≤ buffer.length then
      match embed false sr c seed (buffer.take (86 * c)) wid with
      | .error e => .error e
      | .ok wf => process_frames sr c seed wid fuel (buffer.drop (86 * c)) (out ++ [wf])
    else .ok (out, buffer)

/-- `RealTimeInjector.process_stream` over a finite chunk list: concatenate
each chunk into the buffer, drain full frames through the embedder, and emit
any residual samples unmodified at the end. -/
def process_stream_aux (sr : ℝ) (c seed wid : Nat) :
    List (List ℝ) → List ℝ → List (List ℝ) → Except EmbedError (List (List ℝ))
  | [], buffer, out => .ok (if buffer.isEmpty then out else out ++ [buffer])
  | chunk :: rest, buffer, out =>
    match process_frames sr c seed wid (buffer ++ chunk).length (buffer ++ chunk) out with
    | .error e => .error e
    | .ok r => process_stream_aux sr c seed wid rest r.2 r.1

/-- `RealTimeInjector(watermark_id, chip_rate, sample_rate)`: the inner
`DeepSeal` is built with no seed and no key (public default seed 42) and
`telecom_mode=False`. -/
def process_stream (sr : ℝ) (c wid : Nat) (chunks : List (List ℝ)) :
    Except EmbedError (List (List ℝ)) :=
  process_stream_aux sr c 42 wid chunks [] []

/-- The pass-0 search length of `DeepSeal.extract`:
`preamble_len_chips * 2 + 44100 * 2`.  The second term is a hard-coded
44100-based constant; the configured `sample_rate` is not consulted (the
parameter is kept to mirror the configuration surface). -/
def search_len (chipRate sampleRate : Nat) : Nat :=
  preamble_bits.length * chipRate * 2 + 44100 * 2

/-- `search_window = processed_audio[:min(len(processed_audio), search_len)]`. -/
def coarse_search_window (processed : List ℝ) (chipRate sampleRate : Nat) : List ℝ :=
  processed.take (min processed.length (search_len chipRate sampleRate))

end

/-! ### Basic length facts about the generator models -/

theorem mtDraws_length (n : Nat) (s : MTState) : (mtDraws n s).length = n := by
  induction n generalizing s with
  | zero => rfl
  | succ n ih => simp [mtDraws, ih]

theorem generate_pn_length (seed n : Nat) : (generate_pn_sequence seed n).length = n := by
  simp [generate_pn_sequence, mtDraws_length]

theorem swapAt_length (l : List Nat) (i j : Nat) : (swapAt l i j).length = l.length := by
  simp [swapAt]

theorem shuffleAux_length (i : Nat) (arr : List Nat) (s : MTState) :
    (shuffleAux arr s i).length = arr.length := by
  induction i generalizing arr s with
  | zero => rfl
  | succ i ih => simp [shuffleAux, ih, swapAt_length]

theorem mtPermutation_length (n seed : Nat) : (mtPermutation n seed).length = n := by
  simp [mtPermutation, shuffleAux_length]

theorem argsort_length (l : List Nat) : (argsort l).length = l.length := by
  rw [argsort]
  exact (List.perm_insertionSort _ _).length_eq.trans (List.length_range _)

/-! ### Facts about the bit codecs -/

theorem int_to_bits_length (val w : Nat) : (int_to_bits val w).length = w := by
  induction w with
  | zero => rfl
  | succ w ih => simp [int_to_bits, ih]

theorem int_to_bits_le_one (val w : Nat) : ∀ x ∈ int_to_bits val w, x ≤ 1 := by
  induction w with
  | zero => simp [int_to_bits]
  | succ w ih =>
    intro x hx
    rcases List.mem_cons.mp hx with rfl | hx
    · exact Nat.and_le_right
    · exact ih x hx

theorem two_mul_lor_one (v : Nat) : 2 * v ||| 1 = 2 * v + 1 := by
  apply Nat.eq_of_testBit_eq
  intro i
  cases i with
  | zero =>
    simp [Nat.testBit_lor, Nat.testBit_zero, Nat.mul_add_mod]
  | succ n =>
    have h1 : (2 * v) / 2 = v := by omega
    have h2 : (2 * v + 1) / 2 = v := by omega
    rw [Nat.testBit_lor]
    simp [Nat.testBit_succ, h1, h2, Nat.zero_testBit]

theorem b2iStep_eq (v b : Nat) :
    b2iStep v b = 2 * v + (if 0 < b then 1 else 0) := by
  unfold b2iStep
  rw [Nat.shiftLeft_eq, pow_one, Nat.mul_comm v 2]
  by_cases hb : 0 < b
  · simp [hb, two_mul_lor_one]
  · simp [hb]

theorem bits_foldl_general (l : List Nat) (v : Nat) :
    l.foldl b2iStep v = v * 2 ^ l.length + l.foldl b2iStep 0 := by
  induction l generalizing v with
  | nil => simp
  | cons b l ih =>
    simp only [List.foldl_cons, List.length_cons]
    rw [ih (b2iStep v b), ih (b2iStep 0 b), b2iStep_eq v b, b2iStep_eq 0 b]
    ring

theorem bits_to_int_lt (l : List Nat) : bits_to_int l < 2 ^ l.length := by
  suffices h : ∀ l : List Nat, ∀ v : Nat, l.foldl b2iStep v < (v + 1) * 2 ^ l.length by
    have := h l 0
    simpa [bits_to_int] using this
  intro l
  induction l with
  | nil => intro v; simp
  | cons b l ih =>
    intro v
    have step_le : b2iStep v b ≤ 2 * v + 1 := by
      rw [b2iStep_eq]; split <;> omega
    calc (b :: l).foldl b2iStep v = l.foldl b2iStep (b2iStep v b) := by simp
    _ < (b2iStep v b + 1) * 2 ^ l.length := ih _
    _ ≤ (2 * v + 2) * 2 ^ l.length := by
        have : b2iStep v b + 1 ≤ 2 * v + 2 := by omega
        exact Nat.mul_le_mul_right _ this
    _ = (v + 1) * 2 ^ (b :: l).length := by simp [List.length_cons, pow_succ]; ring

theorem bits_to_int_cons (b : Nat) (l : List Nat) :
    bits_to_int (b :: l) = b2iStep 0 b * 2 ^ l.length + bits_to_int l := by
  simp only [bits_to_int, List.foldl_cons]
  exact bits_foldl_general l (b2iStep 0 b)

theorem bits_to_int_int_to_bits (val w : Nat) :
    bits_to_int (int_to_bits val w) = val % 2 ^ w := by
  induction w with
  | zero => simp [int_to_bits, bits_to_int, Nat.mod_one]
  | succ w ih =>
    rw [int_to_bits, bits_to_int_cons, int_to_bits_length, ih]
    have hbit : b2iStep 0 ((val >>> w) &&& 1) = val / 2 ^ w % 2 := by
      rw [b2iStep_eq, Nat.shiftRight_eq_div_pow, Nat.and_one_is_mod]
      rcases Nat.mod_two_eq_zero_or_one (val / 2 ^ w) with h | h <;> simp [h]
    rw [hbit, pow_succ, Nat.mod_mul, Nat.mul_comm (2 ^ w) (val / 2 ^ w % 2)]
    omega

/-! ### Facts about CRC-8 -/

theorem crc8Round_le (c : Nat) : crc8Round c ≤ 255 := by
  unfold crc8Round
  exact Nat.and_le_right

theorem crc8Rounds_le (n c : Nat) (hn : 1 ≤ n) : crc8Rounds n c ≤ 255 := by
  induction n generalizing c with
  | zero => omega
  | succ n ih =>
    rcases Nat.eq_or_lt_of_le hn with h | h
    · rw [← h]
      simpa [crc8Rounds] using crc8Round_le c
    · rw [crc8Rounds]
      exact ih _ (by omega)

theorem crc8_lt (data : List Nat) : crc8 data < 256 := by
  suffices h : ∀ l : List Nat, ∀ c : Nat, c ≤ 255 → l.foldl (fun c b => crc8Rounds 8 (c ^^^ b)) c ≤ 255 by
    have := h data 0 (by omega)
    unfold crc8
    omega
  intro l
  induction l with
  | nil => intro c hc; simpa using hc
  | cons b l ih =>
    intro c hc
    simp only [List.foldl_cons]
    exact ih _ (crc8Rounds_le 8 _ (by omega))

/-! ### Facts about the Hamming(7,4) code -/

theorem encodeNibble_length (nib : List Nat) : (encodeNibble nib).length = 7 := by
  simp [encodeNibble]

theorem encodeNibble_le_one (nib : List Nat) : ∀ x ∈ encodeNibble nib, x ≤ 1 := by
  intro x hx
  simp only [encodeNibble, List.mem_map] at hx
  obtain ⟨j, _, rfl⟩ := hx
  exact Nat.le_of_lt_succ (Nat.mod_lt _ (by norm_num))

theorem decodeBlock_length (blk : List Nat) : (decodeBlock blk).length = min 4 blk.length := by
  simp only [decodeBlock]
  split
  · split <;> simp [List.length_set]
  · simp

theorem decodeBlock_encodeNibble (a b c d : Nat)
    (ha : a ≤ 1) (hb : b ≤ 1) (hc : c ≤ 1) (hd : d ≤ 1) :
    decodeBlock (encodeNibble [a, b, c, d]) = [a, b, c, d] := by
  interval_cases a <;> interval_cases b <;> interval_cases c <;> interval_cases d <;> decide

theorem exists_cons4 (l : List Nat) (h : 4 ≤ l.length) :
    ∃ a b c d r, l = a :: b :: c :: d :: r := by
  rcases l with _ | ⟨a, _ | ⟨b, _ | ⟨c, _ | ⟨d, r⟩⟩⟩⟩
  · simp at h
  · simp at h
  · simp at h
  · simp at h
  · exact ⟨a, b, c, d, r, rfl⟩

theorem exists_cons7 (l : List Nat) (h : 7 ≤ l.length) :
    ∃ a b c d e f g r, l = a :: b :: c :: d :: e :: f :: g :: r := by
  rcases l with _ | ⟨a, _ | ⟨b, _ | ⟨c, _ | ⟨d, _ | ⟨e, _ | ⟨f, _ | ⟨g, r⟩⟩⟩⟩⟩⟩⟩
  · simp at h
  · simp at h
  · simp at h
  · simp at h
  · simp at h
  · simp at h
  · simp at h
  · exact ⟨a, b, c, d, e, f, g, r, rfl⟩

theorem exists_seven (l : List Nat) (h : l.length = 7) :
    ∃ a b c d e f g, l = [a, b, c, d, e, f, g] := by
  obtain ⟨a, b, c, d, e, f, g, r, rfl⟩ := exists_cons7 l (by omega)
  have hr : r = [] := by
    apply List.eq_nil_of_length_eq_zero
    simp only [List.length_cons] at h
    omega
  subst hr
  exact ⟨a, b, c, d, e, f, g, rfl⟩

theorem hamming_roundtrip : ∀ (k : Nat) (l : List Nat), l.length = 4 * k →
    (∀ x ∈ l, x ≤ 1) →
    ∃ e, encode_hamming l = .ok e ∧ e.length = 7 * k ∧ (∀ x ∈ e, x ≤ 1) ∧
      decode_hamming e = .ok l := by
  intro k
  induction k with
  | zero =>
    intro l hl _
    have hnil : l = [] := List.eq_nil_of_length_eq_zero (by omega)
    subst hnil
    exact ⟨[], rfl, rfl, by simp, rfl⟩
  | succ k ih =>
    intro l hl hbits
    obtain ⟨a, b, c, d, r, rfl⟩ := exists_cons4 l (by omega)
    have hr : r.length = 4 * k := by simp only [List.length_cons] at hl; omega
    have hrbits : ∀ x ∈ r, x ≤ 1 := fun x hx => hbits x (by simp [hx])
    obtain ⟨e, he, helen, hebits, hdec⟩ := ih r hr hrbits
    have ha : a ≤ 1 := hbits a (by simp)
    have hb : b ≤ 1 := hbits b (by simp)
    have hc : c ≤ 1 := hbits c (by simp)
    have hd : d ≤ 1 := hbits d (by simp)
    refine ⟨encodeNibble [a, b, c, d] ++ e, ?_, ?_, ?_, ?_⟩
    · simp [encode_hamming, he]
    · simp only [List.length_append, encodeNibble_length, helen, List.length_cons]
      ring
    · intro x hx
      rcases List.mem_append.mp hx with hx | hx
      · exact encodeNibble_le_one _ x hx
      · exact hebits x hx
    · obtain ⟨c1, c2, c3, c4, c5, c6, c7, hcw⟩ :=
        exists_seven (encodeNibble [a, b, c, d]) (encodeNibble_length _)
      rw [hcw]
      have hshape : ([c1, c2, c3, c4, c5, c6, c7] : List Nat) ++ e
          = c1 :: c2 :: c3 :: c4 :: c5 :: c6 :: c7 :: e := by simp
      rw [hshape]
      show (match decode_hamming e with
        | Except.error e => Except.error e
        | Except.ok tail => Except.ok (decodeBlock [c1, c2, c3, c4, c5, c6, c7] ++ tail))
        = Except.ok (a :: b :: c :: d :: r)
      rw [hdec, ← hcw, decodeBlock_encodeNibble a b c d ha hb hc hd]
      simp

theorem decode_ok_mult7 : ∀ (k : Nat) (l : List Nat), l.length = 7 * k →
    ∃ d, decode_hamming l = .ok d ∧ d.length = 4 * k := by
  intro k
  induction k with
  | zero =>
    intro l hl
    have hnil : l = [] := List.eq_nil_of_length_eq_zero (by omega)
    subst hnil
    exact ⟨[], rfl, rfl⟩
  | succ k ih =>
    intro l hl
    obtain ⟨b1, b2, b3, b4, b5, b6, b7, r, rfl⟩ := exists_cons7 l (by omega)
    have hr : r.length = 7 * k := by simp only [List.length_cons] at hl; omega
    obtain ⟨d, hd, hdlen⟩ := ih r hr
    refine ⟨decodeBlock [b1, b2, b3, b4, b5, b6, b7] ++ d, ?_, ?_⟩
    · simp [decode_hamming, hd]
    · rw [List.length_append, decodeBlock_length, hdlen]
      simp
      omega

/-! ### The fixed interleaver permutation, concretely -/

set_option maxRecDepth 1000000 in
theorem mtPermutation_70_eq : mtPermutation 70 0xDEADBEEF = pnPerm70 := by decide

set_option maxRecDepth 1000000 in
theorem argsort_pnPerm70 : argsort pnPerm70 = pnInv70 := by decide

theorem pnPerm70_comp : pnInv70.map (fun i => pnPerm70.getD i 0) = List.range 70 := by decide

theorem pnInv70_lt : ∀ j ∈ pnInv70, j < 70 := by decide

theorem getD_map_lt (l : List Nat) (f : Nat → Nat) (i : Nat) (h : i < l.length) (d e : Nat) :
    (l.map f).getD i d = f (l.getD i e) := by
  rw [List.getD_eq_getElem _ _ (by simpa using h), List.getD_eq_getElem _ _ h,
    List.getElem_map]

theorem range_map_getD (l : List Nat) (d : Nat) :
    (List.range l.length).map (fun i => l.getD i d) = l := by
  apply List.ext_getElem
  · simp
  · intro i h1 h2
    rw [List.getElem_map, List.getElem_range]
    exact List.getD_eq_getElem l d (by simpa using h2)

theorem interleave_length (l : List Nat) : (interleave l).length = l.length := by
  simp [interleave, mtPermutation_length]

theorem getD_le_one (l : List Nat) (i : Nat) (h : ∀ y ∈ l, y ≤ 1) : l.getD i 0 ≤ 1 := by
  by_cases hi : i < l.length
  · rw [List.getD_eq_getElem _ _ hi]
    exact h _ (List.getElem_mem hi)
  · rw [List.getD_eq_default _ _ (by omega)]
    omega

theorem interleave_le_one (l : List Nat) (h : ∀ x ∈ l, x ≤ 1) :
    ∀ x ∈ interleave l, x ≤ 1 := by
  intro x hx
  simp only [interleave, List.mem_map] at hx
  obtain ⟨i, _, rfl⟩ := hx
  exact getD_le_one l i h

theorem deinterleave_interleave (l : List Nat) (hl : l.length = 70) :
    deinterleave (interleave l) = l := by
  have hm : interleave l = pnPerm70.map (fun i => l.getD i 0) := by
    rw [interleave, hl, mtPermutation_70_eq]
  have hil : (interleave l).length = 70 := by rw [interleave_length, hl]
  rw [deinterleave, hil, mtPermutation_70_eq, argsort_pnPerm70, hm]
  have hstep : ∀ j ∈ pnInv70,
      (pnPerm70.map (fun i => l.getD i 0)).getD j 0 = l.getD (pnPerm70.getD j 0) 0 := by
    intro j hj
    have hj70 : j < pnPerm70.length := by
      have := pnInv70_lt j hj
      simpa [pnPerm70] using this
    exact getD_map_lt pnPerm70 _ j hj70 0 0
  rw [List.map_congr_left hstep]
  have hcomp : pnInv70.map (fun j => l.getD (pnPerm70.getD j 0) 0)
      = (pnInv70.map (fun j => pnPerm70.getD j 0)).map (fun v => l.getD v 0) := by
    rw [List.map_map]
    rfl
  rw [hcomp, pnPerm70_comp, ← hl, range_map_getD]

theorem deinterleave_length (l : List Nat) : (deinterleave l).length = l.length := by
  simp [deinterleave, argsort_length, mtPermutation_length]

/-! ### The digital frame chain -/

theorem frame_bits_ok (F : Nat) :
    ∃ fb, frame_bits F = .ok fb ∧ fb.length = 70 ∧ (∀ x ∈ fb, x ≤ 1) := by
  have hdl : (int_to_bits F 32 ++ int_to_bits (crc8 (bytes4 F)) 8).length = 4 * 10 := by
    simp [int_to_bits_length]
  have hdb : ∀ x ∈ int_to_bits F 32 ++ int_to_bits (crc8 (bytes4 F)) 8, x ≤ 1 := by
    intro x hx
    rcases List.mem_append.mp hx with hx | hx
    · exact int_to_bits_le_one _ _ x hx
    · exact int_to_bits_le_one _ _ x hx
  obtain ⟨e, he, helen, hebits, _⟩ := hamming_roundtrip 10 _ hdl hdb
  refine ⟨interleave e, ?_, ?_, interleave_le_one e hebits⟩
  · simp only [frame_bits, he]
  · rw [interleave_length, helen]

theorem raw_demod_bits_length (t : Bool) (sr : ℝ) (c seed : Nat) (fa : List ℝ)
    (fs : Nat) (pol : ℝ) : (raw_demod_bits t sr c seed fa fs pol).length = 70 := by
  set_option maxRecDepth 10000 in
  simp only [raw_demod_bits, List.length_map, List.length_range]

theorem decode_stage_spec (raw : List Nat) (hlen : raw.length = 70) :
    ∃ dec, decode_hamming (deinterleave raw) = .ok dec ∧ dec.length = 40 ∧
      decode_stage raw =
        .ok (if crc8 (bytes4 (bits_to_int (dec.take 32))) = bits_to_int (dec.drop 32)
          then some (bits_to_int (dec.take 32) &&& 0x0FFFFFFF) else none) := by
  have hdlen : (deinterleave raw).length = 7 * 10 := by rw [deinterleave_length, hlen]
  obtain ⟨dec, hdec, hdeclen⟩ := decode_ok_mult7 10 (deinterleave raw) hdlen
  refine ⟨dec, hdec, by omega, ?_⟩
  simp only [decode_stage]
  rw [hdec]
  simp only [hdeclen]
  norm_num
  first
  | done
  | (by_cases hc : crc8 (bytes4 (bits_to_int (List.take 32 dec))) = bits_to_int (List.drop 32 dec) <;>
      simp [hc])

/-! ### Length facts for the DSP models -/

theorem lfilterAux_length (b a x : List ℝ) (n : Nat) : (lfilterAux b a x n).length = n := by
  induction n with
  | zero => rfl
  | succ n ih => simp [lfilterAux, ih]

theorem lfilter_length (b a x : List ℝ) : (lfilter b a x).length = x.length :=
  lfilterAux_length b a x x.length

theorem preemphasis_length (x : List ℝ) : (preemphasis x).length = x.length :=
  lfilter_length _ _ _

theorem apply_bandpass_length (sr : ℝ) (x : List ℝ) :
    (apply_bandpass sr x).length = x.length :=
  lfilter_length _ _ _

theorem convolve_same_length (x w : List ℝ) : (convolve_same x w).length = x.length := by
  simp [convolve_same]

theorem compute_masking_threshold_length (t : Bool) (audio : List ℝ) :
    (compute_masking_threshold t audio).length = audio.length := by
  simp only [compute_masking_threshold, List.length_map, convolve_same_length]

theorem irfft_length (y : List ℂ) (n : Nat) : (irfft y n).length = n := by
  simp [irfft]

theorem shape_spectrum_length (noise audio : List ℝ) (h : noise.length = audio.length) :
    (shape_spectrum noise audio).length = noise.length := by
  rw [shape_spectrum, if_neg (not_not_intro h)]
  have hn : noise.length ≤ 2 ^ Nat.size (audio.length - 1) := by
    have h1 := Nat.lt_size_self (audio.length - 1)
    omega
  simp only [List.length_take, irfft_length]
  omega

theorem stdR_rescale_length (l : List ℝ) :
    (if 1e-9 < stdR l then l.map fun v => v / stdR l else l).length = l.length := by
  split <;> simp

theorem shaped_watermark_length (t : Bool) (host spread : List ℝ)
    (h : host.length = spread.length) :
    (shaped_watermark t host spread).length = spread.length := by
  simp only [shaped_watermark]
  rw [List.length_zipWith, stdR_rescale_length,
    shape_spectrum_length _ _ (by omega), compute_masking_threshold_length]
  omega

theorem flatten_replicate_length (l : List Nat) (c : Nat) :
    ((l.map fun b => List.replicate c b).flatten).length = l.length * c := by
  induction l with
  | nil => simp
  | cons b l ih => simp [ih]; ring

theorem watermark_signal_length (t : Bool) (sr : ℝ) (c seed : Nat) (fb : List Nat) :
    (watermark_signal t sr c seed fb).length = (fb.length + 32) * c := by
  have hfull : (preamble_bits ++ fb ++ preamble_bits).length = fb.length + 32 := by
    simp [preamble_bits]
  simp only [watermark_signal]
  split
  · rw [apply_bandpass_length, List.length_zipWith, List.length_map, List.length_map,
      flatten_replicate_length, generate_pn_length, hfull]
    omega
  · rw [List.length_zipWith, List.length_map, List.length_map,
      flatten_replicate_length, generate_pn_length, hfull]
    omega

/-! ### Characterisation of `embed` -/

theorem embed_invalid (t : Bool) (sr : ℝ) (c seed : Nat) (audio : List ℝ) (wid : Nat)
    (h : 2 ^ 28 ≤ wid) : embed t sr c seed audio wid = .error .invalidId := by
  unfold embed
  rw [if_pos h]

theorem embed_cases (t : Bool) (sr : ℝ) (c seed : Nat) (audio : List ℝ) (wid : Nat)
    (h : wid < 2 ^ 28) :
    (audio.length < 102 * c → embed t sr c seed audio wid = .error .hostTooShort) ∧
    (102 * c ≤ audio.length → ∃ out, embed t sr c seed audio wid = .ok out ∧
      out.length = audio.length ∧ out.drop (102 * c) = audio.drop (102 * c)) := by
  obtain ⟨fb, hfb, hfblen, _⟩ := frame_bits_ok ((1 <<< 28) ||| wid)
  have hsl : (watermark_signal t sr c seed fb).length = 102 * c := by
    rw [watermark_signal_length, hfblen]
  have hne : ¬ 2 ^ 28 ≤ wid := by omega
  unfold embed
  rw [if_neg hne, hfb]
  dsimp only
  constructor
  · intro hshort
    rw [if_pos (by omega)]
  · intro hlong
    rw [if_neg (by omega), hsl]
    have htk : (List.take (102 * c) audio).length = 102 * c := by
      rw [List.length_take]
      omega
    have hswl : (shaped_watermark t (List.take (102 * c) audio)
        (watermark_signal t sr c seed fb)).length = 102 * c := by
      rw [shaped_watermark_length _ _ _ (by rw [htk, hsl]), hsl]
    have hzl : (List.zipWith (fun u v => u + v) (List.take (102 * c) audio)
        (shaped_watermark t (List.take (102 * c) audio)
          (watermark_signal t sr c seed fb))).length = 102 * c := by
      rw [List.length_zipWith, htk, hswl]
      simp
    refine ⟨_, rfl, ?_, ?_⟩
    · rw [List.length_append, hzl, List.length_drop]
      omega
    · rw [List.drop_left' hzl]

/-! ## Claim theorems -/

/-- C2 — CRC gate: the post-synchronisation stage of `extract` (everything
from the payload-window bound check on) never throws; it returns a 28-bit ID
exactly when the payload window
`[final_start_index + 16·chip_rate, final_start_index + 86·chip_rate)` fits
inside the resampled audio **and** the CRC-8 recomputed over the big-endian
4-byte form of the decoded 32-bit payload equals the decoded 8 CRC bits; in
every other case it returns the none sentinel. -/
theorem C2_crc_gate (t : Bool) (sr : ℝ) (c seed : Nat) (finalAudio : List ℝ)
    (finalStart : Nat) (pol : ℝ) :
    ∃ dec, decode_hamming (deinterleave
        (raw_demod_bits t sr c seed finalAudio finalStart pol)) = .ok dec ∧
      dec.length = 40 ∧
      extract_tail t sr c seed finalAudio finalStart pol =
        .ok (if finalStart + 16 * c + 70 * c ≤ finalAudio.length
              ∧ crc8 (bytes4 (bits_to_int (dec.take 32))) = bits_to_int (dec.drop 32)
            then some (bits_to_int (dec.take 32) &&& 0x0FFFFFFF) else none) ∧
      bits_to_int (dec.take 32) &&& 0x0FFFFFFF < 2 ^ 28 := by
  obtain ⟨dec, hdec, hdeclen, hds⟩ :=
    decode_stage_spec _ (raw_demod_bits_length t sr c seed finalAudio finalStart pol)
  have hpl : preamble_bits.length = 16 := rfl
  refine ⟨dec, hdec, hdeclen, ?_, ?_⟩
  · unfold extract_tail
    by_cases hfit : finalStart + 16 * c + 70 * c ≤ finalAudio.length
    · rw [if_neg (by rw [hpl]; omega), hds]
      simp [hfit]
    · rw [if_pos (by rw [hpl]; omega)]
      simp [hfit]
  · calc bits_to_int (dec.take 32) &&& 0x0FFFFFFF ≤ 0x0FFFFFFF := Nat.and_le_right
    _ < 2 ^ 28 := by norm_num

/-- C4 — embed failure preconditions: `embed` throws `InvalidId` exactly when
`id ≥ 2^28`; for valid ids it throws `HostTooShort` exactly when
`len(host) < 102·chip_rate`; it succeeds exactly otherwise (the model is
pure, so in the failure cases nothing is returned and the host list is
untouched by construction). -/
theorem C4_embed_failure_iff (t : Bool) (sr : ℝ) (c seed : Nat) (audio : List ℝ) (wid : Nat) :
    (embed t sr c seed audio wid = .error .invalidId ↔ 2 ^ 28 ≤ wid) ∧
    (embed t sr c seed audio wid = .error .hostTooShort ↔
      wid < 2 ^ 28 ∧ audio.length < 102 * c) ∧
    ((∃ out, embed t sr c seed audio wid = .ok out) ↔
      wid < 2 ^ 28 ∧ 102 * c ≤ audio.length) := by
  by_cases hbig : 2 ^ 28 ≤ wid
  · rw [embed_invalid t sr c seed audio wid hbig]
    refine ⟨⟨fun _ => hbig, fun _ => rfl⟩, ⟨fun hcon => ?_, fun hcon => ?_⟩,
      ⟨fun hcon => ?_, fun hcon => ?_⟩⟩
    · simp at hcon
    · omega
    · obtain ⟨out, hout⟩ := hcon
      simp at hout
    · omega
  · have hc := embed_cases t sr c seed audio wid (by omega)
    by_cases hshort : audio.length < 102 * c
    · rw [hc.1 hshort]
      refine ⟨⟨fun hcon => ?_, fun hcon => ?_⟩, ⟨fun _ => ⟨by omega, hshort⟩, fun _ => rfl⟩,
        ⟨fun hcon => ?_, fun hcon => ?_⟩⟩
      · simp at hcon
      · omega
      · obtain ⟨out, hout⟩ := hcon
        simp at hout
      · omega
    · obtain ⟨out, hout, _, _⟩ := hc.2 (by omega)
      rw [hout]
      refine ⟨⟨fun hcon => ?_, fun hcon => ?_⟩, ⟨fun hcon => ?_, fun hcon => ?_⟩,
        ⟨fun _ => ⟨by omega, by omega⟩, fun _ => ⟨out, rfl⟩⟩⟩
      · simp at hcon
      · omega
      · simp at hcon
      · omega

/-- C7 — embed frame effect: for a valid id and a host of length at least
`102·chip_rate`, `embed` succeeds and returns a list of the same length as
the host whose samples from index `102·chip_rate` on are the host samples
unchanged — only samples in `[0, 102·chip_rate)` are modified. -/
theorem C7_embed_frame_effect (t : Bool) (sr : ℝ) (c seed : Nat) (audio : List ℝ)
    (wid : Nat) (hid : wid < 2 ^ 28) (hlen : 102 * c ≤ audio.length) :
    ∃ out, embed t sr c seed audio wid = .ok out ∧ out.length = audio.length ∧
      out.drop (102 * c) = audio.drop (102 * c) :=
  (embed_cases t sr c seed audio wid hid).2 hlen

theorem C7_witness :
    (0 < 2 ^ 28 ∧ 102 * 1 ≤ (List.replicate 102 (0 : ℝ)).length) ∧
    ∃ out, embed false 44100 1 42 (List.replicate 102 (0 : ℝ)) 0 = .ok out ∧
      out.length = (List.replicate 102 (0 : ℝ)).length ∧
      out.drop (102 * 1) = (List.replicate 102 (0 : ℝ)).drop (102 * 1) :=
  ⟨⟨by norm_num, by rw [List.length_replicate]⟩,
    C7_embed_frame_effect false 44100 1 42 (List.replicate 102 (0 : ℝ)) 0
      (by norm_num) (by rw [List.length_replicate])⟩

/-- C3 — the stream adapter's frame handoff is broken in the code: once the
buffer holds a full `86·chip_rate`-sample frame, the frame is removed and
passed to the embedder, but `embed` builds a 102-bit spread signal of
`102·chip_rate` samples and raises its host-too-short `ValueError` because
`86·chip_rate < 102·chip_rate`; no embedded frame is ever yielded.  Evaluated
here at the failing input `chip_rate = 256`, `watermark_id = 1`, one input
chunk of `86·256 = 22016` zero samples. -/
theorem C3_stream_frame_raises :
    process_stream 44100 256 1 [List.replicate (86 * 256) (0 : ℝ)] =
      .error .hostTooShort := by
  have hemb : embed false 44100 256 42 (List.replicate (86 * 256) (0 : ℝ)) 1
      = .error .hostTooShort := by
    refine (embed_cases false 44100 256 42 _ 1 (by norm_num)).1 ?_
    rw [List.length_replicate]
    norm_num
  have hpf : ∀ f : Nat, process_frames 44100 256 42 1 (f + 1)
      (List.replicate (86 * 256) (0 : ℝ)) [] = .error .hostTooShort := by
    intro f
    rw [process_frames]
    rw [if_pos ⟨by norm_num, by rw [List.length_replicate]⟩]
    have htake : (List.replicate (86 * 256) (0 : ℝ)).take (86 * 256)
        = List.replicate (86 * 256) (0 : ℝ) := by
      rw [List.take_replicate, Nat.min_self]
    rw [htake, hemb]
  rw [process_stream]
  rw [process_stream_aux]
  rw [List.nil_append, List.length_replicate]
  have hsucc : (86 * 256 : Nat) = 22015 + 1 := by norm_num
  nth_rewrite 1 [hsucc]
  rw [hpf 22015]

/-- C5 — Hamming(7,4) single-error correction: for every 4-bit data block,
decoding the codeword returns the block (syndrome 0, no correction), and
decoding the codeword with any single position flipped also returns the
block; the syndrome→bit-index lookup is exactly the fixed table
{1:4, 2:5, 3:0, 4:6, 5:1, 6:2, 7:3}. -/
theorem C5_hamming_single_error (d : List Nat) (h4 : d.length = 4)
    (hb : ∀ x ∈ d, x ≤ 1) :
    ∃ e, encode_hamming d = .ok e ∧ decode_hamming e = .ok d ∧
      (∀ j : Fin 7, decode_hamming (e.set j (1 - e.getD j 0)) = .ok d) ∧
      syndrome_map 1 = some 4 ∧ syndrome_map 2 = some 5 ∧ syndrome_map 3 = some 0 ∧
      syndrome_map 4 = some 6 ∧ syndrome_map 5 = some 1 ∧ syndrome_map 6 = some 2 ∧
      syndrome_map 7 = some 3 := by
  obtain ⟨a, b, c, d', r, rfl⟩ := exists_cons4 d (by omega)
  have hr : r = [] := by
    apply List.eq_nil_of_length_eq_zero
    simp only [List.length_cons] at h4
    omega
  subst hr
  have ha : a ≤ 1 := hb a (by simp)
  have hb' : b ≤ 1 := hb b (by simp)
  have hc : c ≤ 1 := hb c (by simp)
  have hd : d' ≤ 1 := hb d' (by simp)
  interval_cases a <;> interval_cases b <;> interval_cases c <;> interval_cases d' <;>
    exact ⟨_, rfl, by decide, by decide, rfl, rfl, rfl, rfl, rfl, rfl, rfl⟩

theorem C5_witness :
    (([1, 0, 1, 1] : List Nat).length = 4 ∧ (∀ x ∈ ([1, 0, 1, 1] : List Nat), x ≤ 1)) ∧
    ∃ e, encode_hamming [1, 0, 1, 1] = .ok e ∧ decode_hamming e = .ok [1, 0, 1, 1] ∧
      (∀ j : Fin 7, decode_hamming (e.set j (1 - e.getD j 0)) = .ok [1, 0, 1, 1]) ∧
      syndrome_map 1 = some 4 ∧ syndrome_map 2 = some 5 ∧ syndrome_map 3 = some 0 ∧
      syndrome_map 4 = some 6 ∧ syndrome_map 5 = some 1 ∧ syndrome_map 6 = some 2 ∧
      syndrome_map 7 = some 3 :=
  ⟨⟨rfl, by decide⟩, C5_hamming_single_error [1, 0, 1, 1] rfl (by decide)⟩

/-- C6 (counterexample) — the claim `search_len = 32·chip_rate + 2·sample_rate`
fails at `chip_rate = 256`, `sample_rate = 8000`: the code computes
`32·256 + 88200 = 96392`, not `32·256 + 16000 = 24192`. -/
theorem C6_counterexample : ¬ (search_len 256 8000 = 32 * 256 + 2 * 8000) := by decide

/-- C6 (amended) — coarse-sync window: for every configuration, the pass-0
search length is `32·chip_rate + 2·44100` (the two-second term is hard-coded
at 44100 Hz, regardless of the configured sample rate), and the window is the
first `min(len, search_len)` samples of the pre-processed input, i.e. the
whole input when shorter. -/
theorem C6_search_window (c s : Nat) (processed : List ℝ) :
    search_len c s = 32 * c + 2 * 44100 ∧
    (coarse_search_window processed c s).length
      = min processed.length (search_len c s) ∧
    coarse_search_window processed c s = processed.take (search_len c s) := by
  refine ⟨?_, ?_, ?_⟩
  · show preamble_bits.length * c * 2 + 44100 * 2 = 32 * c + 2 * 44100
    have hpl : preamble_bits.length = 16 := rfl
    rw [hpl]
    ring
  · rw [coarse_search_window, List.length_take]
    omega
  · rw [coarse_search_window]
    rcases Nat.le_total processed.length (search_len c s) with hle | hle
    · rw [Nat.min_eq_left hle, List.take_length, List.take_of_length_le hle]
    · rw [Nat.min_eq_right hle]

/-- C8 (counterexample) — the claim "when a key string is supplied, the seed
is the first 4 bytes of SHA-256(key), big-endian" fails for the empty key
string: Python's `if key:` is false for `""`, so the public default 42 is
used instead of the SHA-derived value `0xe3b0c442…`. -/
theorem C8_counterexample :
    ¬ (derive_seed none (some "") = first4BE (shaDigest (utf8Encode ""))) := by decide

/-- C8 (amended) — seed derivation priority: an explicit integer seed always
wins; otherwise a **non-empty** key string yields the big-endian value of the
first 4 bytes of SHA-256 of its UTF-8 encoding; otherwise (no key, or the
empty key string, which is falsy in Python) the public default 42.  The last
conjunct pins the hash model to the FIPS 180-4 test vector for "abc". -/
theorem C8_seed_derivation :
    (∀ (s : Nat) (k : Option String), derive_seed (some s) k = s) ∧
    (∀ k : String, k ≠ "" → derive_seed none (some k) = first4BE (shaDigest (utf8Encode k))) ∧
    derive_seed none none = 42 ∧
    derive_seed none (some "") = 42 ∧
    derive_seed none (some "abc") = 0xba7816bf := by
  refine ⟨fun s k => rfl, fun k hk => ?_, rfl, rfl, by decide⟩
  simp [derive_seed, hk]

theorem C8_witness :
    ("abc" : String) ≠ "" ∧
    derive_seed none (some "abc") = first4BE (shaDigest (utf8Encode "abc")) :=
  ⟨by decide, C8_seed_derivation.2.1 "abc" (by decide)⟩

/-- C9 — PN generator contract: for every state and length, the sequence has
exactly `n` elements, every element is +1 or −1 (the float values ±1.0 in the
source), and the output depends only on `self.seed` — in particular the
method reads neither `self.rng` nor any other shared state, so two instances
with equal seeds (and arbitrary other state) produce identical sequences. -/
theorem C9_generate_pn (ds : DeepSeal) (n : Nat) :
    (ds.generate_pn n).length = n ∧
    (∀ x ∈ ds.generate_pn n, x = 1 ∨ x = -1) ∧
    ∀ ds' : DeepSeal, ds'.seed = ds.seed → ds'.generate_pn n = ds.generate_pn n := by
  refine ⟨generate_pn_length _ _, ?_, ?_⟩
  · intro x hx
    simp only [DeepSeal.generate_pn, generate_pn_sequence, List.mem_map] at hx
    obtain ⟨y, _, rfl⟩ := hx
    have hy : y &&& 1 = 0 ∨ y &&& 1 = 1 := by
      have h1 : y &&& 1 ≤ 1 := Nat.and_le_right
      omega
    rcases hy with h | h
    · right
      rw [h]
      norm_num
    · left
      rw [h]
      norm_num
  · intro ds' h
    simp [DeepSeal.generate_pn, h]

theorem C9_witness :
    (DeepSeal.mk 42 512 8000 true (mtFresh 7)).seed
      = (DeepSeal.mk 42 256 44100 false (mtFresh 42)).seed ∧
    (DeepSeal.mk 42 512 8000 true (mtFresh 7)).generate_pn 5
      = (DeepSeal.mk 42 256 44100 false (mtFresh 42)).generate_pn 5 :=
  ⟨rfl, (C9_generate_pn (DeepSeal.mk 42 256 44100 false (mtFresh 42)) 5).2.2
    (DeepSeal.mk 42 512 8000 true (mtFresh 7)) rfl⟩

theorem shl28_lor_mask (v wid : Nat) (hw : wid < 2 ^ 28) :
    ((v <<< 28) ||| wid) &&& 0x0FFFFFFF = wid := by
  have h28 : (0x0FFFFFFF : Nat) = 2 ^ 28 - 1 := by norm_num
  rw [h28]
  apply Nat.eq_of_testBit_eq
  intro i
  simp only [Nat.testBit_and, Nat.testBit_or, Nat.testBit_shiftLeft,
    Nat.testBit_two_pow_sub_one]
  by_cases hi : i < 28
  · have hni : ¬ 28 ≤ i := by omega
    simp [hni, hi]
  · have h1 : wid.testBit i = false :=
      Nat.testBit_lt_two_pow
        (lt_of_lt_of_le hw (Nat.pow_le_pow_right (by norm_num) (by omega)))
    simp [hi, h1]

/-- C10 — the version nibble is not validated on extraction: a frame built by
the embedder's own digital chain but carrying an arbitrary version nibble `v`
(not only the fixed version 1) passes the CRC gate, and the decode stage
returns its low 28 bits unchanged. -/
theorem C10_version_ignored (v wid : Nat) (hv : v < 16) (hw : wid < 2 ^ 28) :
    ∃ fb, frame_bits ((v <<< 28) ||| wid) = .ok fb ∧
      decode_stage fb = .ok (some wid) := by
  have hFlt : (v <<< 28) ||| wid < 2 ^ 32 := by
    apply Nat.or_lt_two_pow
    · rw [Nat.shiftLeft_eq]
      calc v * 2 ^ 28 < 16 * 2 ^ 28 := (Nat.mul_lt_mul_right (by norm_num)).mpr hv
      _ = 2 ^ 32 := by norm_num
    · calc wid < 2 ^ 28 := hw
      _ < 2 ^ 32 := by norm_num
  have hdl : (int_to_bits ((v <<< 28) ||| wid) 32
      ++ int_to_bits (crc8 (bytes4 ((v <<< 28) ||| wid))) 8).length = 4 * 10 := by
    simp [int_to_bits_length]
  have hdb : ∀ x ∈ int_to_bits ((v <<< 28) ||| wid) 32
      ++ int_to_bits (crc8 (bytes4 ((v <<< 28) ||| wid))) 8, x ≤ 1 := by
    intro x hx
    rcases List.mem_append.mp hx with hx | hx
    · exact int_to_bits_le_one _ _ x hx
    · exact int_to_bits_le_one _ _ x hx
  obtain ⟨e, he, helen, hebits, hdec⟩ := hamming_roundtrip 10 _ hdl hdb
  refine ⟨interleave e, by simp only [frame_bits, he], ?_⟩
  have hinv : deinterleave (interleave e) = e := deinterleave_interleave e (by omega)
  simp only [decode_stage, hinv, hdec]
  rw [if_neg (by rw [hdl]; norm_num)]
  rw [List.take_left' (int_to_bits_length ((v <<< 28) ||| wid) 32),
    List.drop_left' (int_to_bits_length ((v <<< 28) ||| wid) 32)]
  rw [bits_to_int_int_to_bits, bits_to_int_int_to_bits, Nat.mod_eq_of_lt hFlt,
    Nat.mod_eq_of_lt (lt_of_lt_of_le (crc8_lt _) (by norm_num))]
  rw [if_pos rfl, shl28_lor_mask v wid hw]

theorem C10_witness :
    (7 < 16 ∧ 12345 < 2 ^ 28) ∧
    ∃ fb, frame_bits ((7 <<< 28) ||| 12345) = .ok fb ∧
      decode_stage fb = .ok (some 12345) :=
  ⟨⟨by norm_num, by norm_num⟩, C10_version_ignored 7 12345 (by norm_num) (by norm_num)⟩

end SonicTag
